import Mathlib

/-!
Verification of the chunking engine of `markdown_lab` (`src/chunker.rs`).

Rust strings are modelled as `List Char` (Unicode scalar values).  Byte-based
operations of the source (`str::len`, slicing `&s[..n]`, `split_at`,
`rfind`, `char_indices`) are modelled through an explicit UTF-8 byte-length
function; a byte slice that does not fall on a character boundary is a Rust
panic, modelled as `none`.  Floating point densities (`f32`) are modelled
over `ℚ` with the numerals of the source; character classification
(`is_uppercase`, `is_numeric`, `to_lowercase`) is modelled on its ASCII
fragment, which covers every input used in the development.
-/

namespace MarkdownLab

/-- UTF-8 encoded length in bytes of one Unicode scalar value. -/
def u8len (c : Char) : Nat :=
  if c.toNat < 0x80 then 1
  else if c.toNat < 0x800 then 2
  else if c.toNat < 0x10000 then 3
  else 4

/-- Rust `str::len`: length of the string in UTF-8 bytes. -/
def byteLen (s : List Char) : Nat := (s.map u8len).sum

/-- Rust `char::is_whitespace` and the regex class `\s` (the Unicode
White_Space set, identical for both in Rust). -/
def isWs (c : Char) : Bool :=
  c == ' ' || c == '\t' || c == '\n' || c == '\r' ||
  c.toNat == 0x0B || c.toNat == 0x0C || c.toNat == 0x85 || c.toNat == 0xA0 ||
  c.toNat == 0x1680 || (0x2000 ≤ c.toNat && c.toNat ≤ 0x200A) ||
  c.toNat == 0x2028 || c.toNat == 0x2029 || c.toNat == 0x202F ||
  c.toNat == 0x205F || c.toNat == 0x3000

/-- Rust `&s[..n]` as a prefix take of `n` bytes; `none` when `n` is not a
character boundary or exceeds the length (a Rust panic). -/
def takeBytes? : Nat → List Char → Option (List Char)
  | 0, _ => some []
  | _ + 1, [] => none
  | n + 1, c :: rest =>
    if n + 1 < u8len c then none
    else (takeBytes? (n + 1 - u8len c) rest).map (c :: ·)

/-- Rust `&s[n..]` as a drop of `n` bytes; `none` when `n` is not a character
boundary or exceeds the length (a Rust panic). -/
def dropBytes? : Nat → List Char → Option (List Char)
  | 0, s => some s
  | _ + 1, [] => none
  | n + 1, c :: rest =>
    if n + 1 < u8len c then none
    else dropBytes? (n + 1 - u8len c) rest

/-- Rust `str::rfind(pat)` for a literal pattern: byte offset of the start of
the last occurrence of `pat` as a substring. -/
def rfindSub (pat : List Char) : List Char → Option Nat
  | [] => none
  | c :: rest =>
    match rfindSub pat rest with
    | some o => some (u8len c + o)
    | none => if pat.isPrefixOf (c :: rest) then some 0 else none

/-- Rust `str::rfind(p)` for a character predicate: byte offset of the last
character satisfying `p`. -/
def rfindCharP (p : Char → Bool) : List Char → Option Nat
  | [] => none
  | c :: rest =>
    match rfindCharP p rest with
    | some o => some (u8len c + o)
    | none => if p c then some 0 else none

/-- Rust `str::char_indices` starting from byte offset `off`:
`(byte_offset, char)` pairs. -/
def charIdxFrom (off : Nat) : List Char → List (Nat × Char)
  | [] => []
  | c :: rest => (off, c) :: charIdxFrom (off + u8len c) rest

def charIdx (s : List Char) : List (Nat × Char) := charIdxFrom 0 s

/-- The sentence-ending loop of `find_optimal_split_point`, iterating over the
already reversed `char_indices` of the prefix: a `.`/`!`/`?` at byte offset
`i` such that `text.chars().nth(i + 1)` (a character index into the full
text) is whitespace yields the cut `i + 2`. -/
def sentenceScanRev (full : List Char) : List (Nat × Char) → Option Nat
  | [] => none
  | (i, c) :: rest =>
    if (c == '.' || c == '!' || c == '?') &&
        (match full.get? (i + 1) with
         | some d => isWs d
         | none => false) then
      some (i + 2)
    else sentenceScanRev full rest

/-- `StreamingChunker::find_optimal_split_point` (chunker.rs:415-453).
`none` models a panic of the slice `&text[..target_position]`. -/
def find_optimal_split_point (cs co : Nat) (text : List Char) : Option Nat :=
  if cs - co ≥ byteLen text then some (byteLen text)
  else
    match takeBytes? (cs - co) text with
    | none => none
    | some pre =>
      match rfindSub ('\n' :: '\n' :: []) pre with
      | some pos => some (pos + 2)
      | none =>
        match rfindCharP (fun c => c == '\n') pre with
        | some pos => some (pos + 1)
        | none =>
          match sentenceScanRev text (charIdx pre).reverse with
          | some r => some r
          | none =>
            match rfindCharP isWs pre with
            | some pos => some (pos + 1)
            | none => some (cs - co)

/-- Rust `str::trim`: remove leading and trailing whitespace characters. -/
def trimChars (s : List Char) : List Char :=
  ((s.dropWhile isWs).reverse.dropWhile isWs).reverse

/-- Rust `str::split_whitespace`: maximal runs of non-whitespace characters. -/
def splitWs : List Char → List (List Char)
  | [] => []
  | c :: rest =>
    if isWs c then splitWs rest
    else
      match splitWs rest with
      | [] => [[c]]
      | w :: ws =>
        match rest with
        | [] => [[c]]
        | d :: _ => if isWs d then [c] :: w :: ws else (c :: w) :: ws

/-- Rust `str::contains(sub)`: substring containment. -/
def containsSub (pat : List Char) : List Char → Bool
  | [] => pat.isEmpty
  | c :: rest => pat.isPrefixOf (c :: rest) || containsSub pat rest

/-- Rust `str::lines` (split on `\n`, drop a final empty piece produced by a
trailing `\n`, strip one trailing `\r` from each line): splitting step. -/
def splitNl : List Char → List (List Char)
  | [] => [[]]
  | c :: rest =>
    if c == '\n' then [] :: splitNl rest
    else
      match splitNl rest with
      | [] => [[c]]
      | p :: ps => (c :: p) :: ps

def stripCr (l : List Char) : List Char :=
  if l.getLast? == some '\r' then l.dropLast else l

def rustLines (s : List Char) : List (List Char) :=
  if s.isEmpty then []
  else
    let parts := splitNl s
    let parts := if s.getLast? == some '\n' then parts.dropLast else parts
    parts.map stripCr

/-! ### Density scorer (`calculate_semantic_density`, chunker.rs:235-282) -/

/-- The fixed keyword list of `calculate_semantic_density`. -/
def kwList : List (List Char) :=
  [ "function".toList, "class".toList, "method".toList, "algorithm".toList,
    "process".toList, "system".toList, "data".toList, "model".toList,
    "analysis".toList, "implementation".toList ]

/-- The three per-token indicator increments of the source loop:
`+0.5` for an uppercase first character, `+0.3` for any numeric character,
`+0.7` for a keyword contained in the lowercased token. -/
def wordScore (w : List Char) : ℚ :=
  (if (w.head?.map Char.isUpper).getD false then 1/2 else 0) +
  (if w.any (fun c => c.isDigit) then 3/10 else 0) +
  (if kwList.any (fun k => containsSub k (w.map Char.toLower)) then 7/10 else 0)

/-- `calculate_semantic_density` (chunker.rs:235-282), with `f32` modelled
over `ℚ`. -/
def calculate_semantic_density (text : List Char) : ℚ :=
  let ws := splitWs text
  if ws.length = 0 then 0
  else
    let ind := ws.foldl (fun acc w => acc + wordScore w) 0
    let n : ℚ := ws.length
    min (ind / n) 1 + min (n / 100) (2/10)

/-! ### Heading regex `^(#{1,6})\s+(.+)$` (chunker.rs:37-38)

The `regex` crate uses leftmost-first (Perl-style) semantics.  The line
matches iff it starts with `m` `#` characters, `1 ≤ m ≤ 6`, the character
after them (if the line has more than `m` leading `#` it cannot match), and
the remainder decomposes as a non-empty whitespace run followed by a
non-empty `\n`-free tail; greediness makes `\s+` take the longest whitespace
prefix that still leaves a non-empty `\n`-free tail for `(.+)$`. -/

def countLeadingHash : List Char → Nat
  | [] => 0
  | c :: rest => if c == '#' then countLeadingHash rest + 1 else 0

def countLeadingWs : List Char → Nat
  | [] => 0
  | c :: rest => if isWs c then countLeadingWs rest + 1 else 0

/-- Largest `k` with `1 ≤ k ≤ bound` such that dropping `k` characters of
`rest` leaves a non-empty tail without `'\n'`; the capture is that tail. -/
def bestTail (rest : List Char) : Nat → Option (List Char)
  | 0 => none
  | k + 1 =>
    let tail := rest.drop (k + 1)
    if !tail.isEmpty && !tail.contains '\n' then some tail
    else bestTail rest k

/-- `HEADING_REGEX.captures`: `some (level, heading_text)` on a match. -/
def headingCaptures (line : List Char) : Option (Nat × List Char) :=
  let m := countLeadingHash line
  if 1 ≤ m ∧ m ≤ 6 then
    let rest := line.drop m
    match bestTail rest (countLeadingWs rest) with
    | some tail => some (m, tail)
    | none => none
  else none

/-! ### Chunk model and the streaming accumulator (chunker.rs:20-34, 301-472) -/

structure ChunkMetadata where
  heading : Option (List Char)
  level : Nat
  position : Nat
  word_count : Nat
  char_count : Nat
  semantic_density : ℚ
deriving DecidableEq, Repr

structure Chunk where
  content : List Char
  metadata : ChunkMetadata
deriving DecidableEq, Repr

/-- `create_chunk_object` (chunker.rs:165-189). -/
def create_chunk_object (content : List Char) (heading : Option (List Char))
    (level position : Nat) : Chunk :=
  { content := content
    metadata :=
      { heading := heading
        level := level
        position := position
        word_count := (splitWs content).length
        char_count := content.length
        semantic_density := calculate_semantic_density content } }

structure StreamingChunker where
  chunk_size : Nat
  chunk_overlap : Nat
  current_chunk : List Char
  current_heading : Option (List Char)
  current_level : Nat
  position : Nat
  completed_chunks : List Chunk
deriving DecidableEq, Repr

/-- `StreamingChunker::new` (chunker.rs:315-326): plain construction, no
validation of any `(chunk_size, chunk_overlap)` pair. -/
def StreamingChunker.new (cs co : Nat) : StreamingChunker :=
  { chunk_size := cs
    chunk_overlap := co
    current_chunk := []
    current_heading := none
    current_level := 0
    position := 0
    completed_chunks := [] }

/-- `StreamingChunker::finalize_current_chunk` (chunker.rs:371-382). -/
def finalize_current_chunk (st : StreamingChunker) : StreamingChunker :=
  { st with
    completed_chunks := st.completed_chunks ++
      [create_chunk_object st.current_chunk st.current_heading
        st.current_level st.position]
    position := st.position + 1
    current_chunk := [] }

/-- `StreamingChunker::split_large_chunk` (chunker.rs:384-413).  `none`
models a panic of `split_at` or of the overlap slice
`&first_part[overlap_start..]`. -/
def split_large_chunk (st : StreamingChunker) : Option StreamingChunker :=
  match find_optimal_split_point st.chunk_size st.chunk_overlap st.current_chunk with
  | none => none
  | some sp =>
    match takeBytes? sp st.current_chunk with
    | none => none
    | some first =>
      match dropBytes? sp st.current_chunk with
      | none => none
      | some remaining =>
        match dropBytes?
            (if byteLen first > st.chunk_overlap then
              byteLen first - st.chunk_overlap
             else 0) first with
        | none => none
        | some overlap_text =>
          some { st with
                 completed_chunks := st.completed_chunks ++
                   [create_chunk_object first st.current_heading
                     st.current_level st.position]
                 position := st.position + 1
                 current_chunk := overlap_text ++ trimChars remaining }

/-- The buffer after appending a body line in `add_line`: the line itself if
the buffer is empty, otherwise buffer, `'\n'`, line. -/
def appendLine (buf line : List Char) : List Char :=
  if buf.isEmpty then line else buf ++ '\n' :: line

/-- `StreamingChunker::add_line` (chunker.rs:329-359). -/
def add_line (st : StreamingChunker) (line : List Char) : Option StreamingChunker :=
  match headingCaptures line with
  | some (lvl, txt) =>
    some { (if st.current_chunk.isEmpty then st else finalize_current_chunk st) with
           current_heading := some txt
           current_level := lvl
           current_chunk := line }
  | none =>
    if byteLen (appendLine st.current_chunk line) > st.chunk_size then
      split_large_chunk { st with current_chunk := appendLine st.current_chunk line }
    else some { st with current_chunk := appendLine st.current_chunk line }

def processLines (st : StreamingChunker) : List (List Char) → Option StreamingChunker
  | [] => some st
  | l :: ls =>
    match add_line st l with
    | none => none
    | some st' => processLines st' ls

/-- `StreamingChunker::finalize` (chunker.rs:362-369). -/
def finalizeChunker (st : StreamingChunker) : List Chunk :=
  (if st.current_chunk.isEmpty then st else finalize_current_chunk st).completed_chunks

/-- `semantic_chunking_optimized` (chunker.rs:62-79): feed the lines of the
document, then finalize.  `none` models a panic; the `ChunkerError` channel
of the Rust signature is never used by this code path. -/
def semantic_chunking_optimized (md : List Char) (cs co : Nat) :
    Option (List Chunk) :=
  (processLines (StreamingChunker.new cs co) (rustLines md)).map finalizeChunker

/-- `create_semantic_chunks` (chunker.rs:50-59): content strings only. -/
def create_semantic_chunks (md : List Char) (cs co : Nat) :
    Option (List (List Char)) :=
  (semantic_chunking_optimized md cs co).map (List.map (fun c => c.content))

/-! ### Concrete inputs used by counterexamples and witnesses -/

def exC1 : List Char := "a. b\nc d e f g h".toList

def exC2txt : List Char := "ααααα".toList

def exC3txt : List Char := "aaaaaaa".toList

def exC4txt : List Char := "abczβ defg".toList

def exC4a : List Char := "abczβ".toList

def exC4b : List Char := "βdefg".toList

def exC5txt : List Char := "aaaaaaaaaaaaaaaaaaaaaaaaaaaaaa\n# H".toList

def exC5a : List Char := "aaaaaaaaaa".toList

def exC5b : List Char := "aaaaaaaaaaaaaaaaaaaa".toList

def exC5c : List Char := "# H".toList

def exC6txt : List Char := "αααα".toList

def exC6a : List Char := "αα".toList

def exC6b : List Char := "ααα".toList

def exC7txt : List Char := "# T\nxxxxx\n   # foaaaaaaaa\n# End".toList

def exC7a : List Char := "# T\nxxxxx\n".toList

def exC7b : List Char := "# T\nxxxxx\n# foaaaaaaaa".toList

def exC7c : List Char := "# End".toList

def exC7l1 : List Char := "# T".toList

def exC7l2 : List Char := "xxxxx".toList

def exC7l3 : List Char := "# foaaaaaaaa".toList

/-! ### C1: split-point search direction and strategy order -/

/-- C1 (counterexample): the claim says the Boundary Detector returns the cut
of the first acceptable boundary at-or-after the target offset, searching
forward, so on any input with target offset below the span length the result
would be ≥ the target.  On `"a. b\nc d e f g h"` with `chunk_size = 10`,
`chunk_overlap = 0` (target 10, span byte length 16) the code returns 5 —
the cut after the last line break before the target — refuting the claim. -/
theorem C1_counterexample :
    find_optimal_split_point 10 0 exC1 = some 5 ∧ 5 < 10 - 0 ∧
      10 - 0 < byteLen exC1 := by
  refine ⟨by decide, by decide, by decide⟩

/-! ### C2: boundary selection can panic on multi-byte input -/

/-- C2 (code evaluated at the failing input): on the document of five
Greek alphas (ten UTF-8 bytes) with `chunk_size = 5`, `chunk_overlap = 0`,
the slice `&text[..5]` inside `find_optimal_split_point` falls in the middle
of a character: the pipeline panics (modelled as `none`) instead of
returning chunks, contradicting the claim that boundary selection and the
subsequent split never fail. -/
theorem C2_panic_on_multibyte :
    create_semantic_chunks exC2txt 5 0 = none ∧
      find_optimal_split_point 5 0 exC2txt = none := by
  refine ⟨by decide, by decide⟩

/-! ### C3: construction performs no validation -/

/-- C3 (counterexample): with `chunk_size = 5 < chunk_overlap = 10` the
pipeline succeeds (even emitting an empty chunk), instead of returning a
`ConfigurationError` as the claim states; no such error variant exists in
the source. -/
theorem C3_counterexample :
    create_semantic_chunks exC3txt 5 10 = some [[], exC3txt] := by decide

/-- C3 (amended): `StreamingChunker::new` validates nothing: for every pair
with `chunk_overlap ≥ chunk_size` (as for all others) it returns a plain
accumulator holding the given parameters with empty buffer, no heading,
and position 0; `ChunkerError` has no `ConfigurationError` variant and
`create_semantic_chunks` proceeds with such configurations. -/
theorem C3_new_accepts_any_pair (cs co : Nat) (_h : cs ≤ co) :
    StreamingChunker.new cs co =
      { chunk_size := cs
        chunk_overlap := co
        current_chunk := []
        current_heading := none
        current_level := 0
        position := 0
        completed_chunks := [] } := rfl

/-- C3 (witness): the amended theorem applied at `chunk_size = 5`,
`chunk_overlap = 10`. -/
theorem C3_witness :
    5 ≤ 10 ∧ StreamingChunker.new 5 10 =
      { chunk_size := 5
        chunk_overlap := 10
        current_chunk := []
        current_heading := none
        current_level := 0
        position := 0
        completed_chunks := [] } :=
  ⟨by decide, C3_new_accepts_any_pair 5 10 (by decide)⟩

/-! ### C4: the overlap seed is a byte slice, not a character slice -/

/-- C4 (code evaluated at the failing input): on `"abczβ defg"` with
`chunk_size = 8`, `chunk_overlap = 2`, the split emits `C0 = "abczβ"` and
the flush emits `C1 = "βdefg"`.  The claim requires the first
`min(2, 5) = 2` characters of `C1` to equal the last 2 characters of `C0`,
but the code seeds the new buffer with the last 2 BYTES of the first part
(just `"β"`), so `['β', 'd'] ≠ ['z', 'β']`. -/
theorem C4_byte_seed_at_failing_input :
    create_semantic_chunks exC4txt 8 2 = some [exC4a, exC4b] ∧
      exC4b.take (min 2 exC4a.length) ≠
        exC4a.drop (exC4a.length - min 2 exC4a.length) := by
  refine ⟨by decide, by decide⟩

/-! ### C5: heading-finalized chunks escape the size bound -/

/-- C5 (counterexample): with `chunk_size = 10`, `chunk_overlap = 0`, a
30-character line followed by a heading produces the chunks
`["aaaaaaaaaa", "aaaaaaaaaaaaaaaaaaaa", "# H"]`: the second chunk (20
characters, finalized by the heading transition, not the final flush)
exceeds `chunk_size + chunk_overlap = 10`, refuting the claimed bound. -/
theorem C5_counterexample :
    create_semantic_chunks exC5txt 10 0 = some [exC5a, exC5b, exC5c] ∧
      exC5b.length = 20 ∧ 10 + 0 < 20 := by
  refine ⟨by decide, by decide, by decide⟩

/-! ### C6: chunk_size is a byte threshold, not a character threshold -/

/-- C6 (code evaluated at the failing input): the document of four Greek
alphas has 4 Unicode scalars but 8 UTF-8 bytes; with `chunk_size = 6`,
`chunk_overlap = 2` the claim (character interpretation, 4 ≤ 6) predicts no
split, yet the code splits on byte length (8 > 6) and produces two chunks,
seeding the second with the last 2 bytes (one character) of the first. -/
theorem C6_byte_threshold_at_failing_input :
    create_semantic_chunks exC6txt 6 2 = some [exC6a, exC6b] ∧
      exC6txt.length ≤ 6 := by
  refine ⟨by decide, by decide⟩

/-! ### C7: heading transitions (true) and heading isolation (false) -/

/-- C7 (counterexample): on `"# T\nxxxxx\n   # foaaaaaaaa\n# End"` with
`chunk_size = 20`, `chunk_overlap = 10`, the overlap seed reaches back to
the start of the first part and the seam trim strips the indentation of
`"   # foaaaaaaaa"`, so the middle emitted chunk contains the two distinct
heading-pattern lines `"# T"` and `"# foaaaaaaaa"`, refuting heading
isolation. -/
theorem C7_counterexample :
    create_semantic_chunks exC7txt 20 10 = some [exC7a, exC7b, exC7c] ∧
      rustLines exC7b = [exC7l1, exC7l2, exC7l3] ∧
      (headingCaptures exC7l1).isSome = true ∧
      (headingCaptures exC7l3).isSome = true ∧
      exC7l1 ≠ exC7l3 := by
  refine ⟨by decide, by decide, by decide, by decide, by decide⟩

/-- C7 (amended): the heading-transition mechanics hold as claimed: on a
line matching the heading pattern, `add_line` finalizes the buffer first
when it is non-empty, then installs the captured heading text and level and
restarts the buffer with the heading line verbatim.  (Heading isolation
fails — see the counterexample — because overlap seeding plus seam trimming
can manufacture a second heading-pattern line inside one chunk.) -/
theorem C7_heading_transition (st : StreamingChunker) (line : List Char)
    (lvl : Nat) (txt : List Char)
    (h : headingCaptures line = some (lvl, txt)) :
    add_line st line = some
      { (if st.current_chunk.isEmpty then st else finalize_current_chunk st) with
        current_heading := some txt
        current_level := lvl
        current_chunk := line } := by
  simp only [add_line, h]

def stC7 : StreamingChunker :=
  { StreamingChunker.new 5 0 with current_chunk := 'a' :: 'b' :: [] }

def exHeadLine : List Char := "# A".toList

/-- C7 (witness): the amended transition theorem applied to a concrete
accumulator with the buffer `"ab"` and the heading line `"# A"`. -/
theorem C7_witness :
    add_line stC7 exHeadLine = some
      { (if stC7.current_chunk.isEmpty then stC7 else finalize_current_chunk stC7) with
        current_heading := some ('A' :: [])
        current_level := 1
        current_chunk := exHeadLine } :=
  C7_heading_transition stC7 exHeadLine 1 ('A' :: []) (by decide)

/-! ### C8: the density scorer matches the claimed closed formula -/

/-- Density formula as worded by the claim: zero tokens give `0`; otherwise
`min(1, (0.5·a + 0.3·b + 0.7·k) / n) + min(0.2, n / 100)` where `a`, `b`,
`k` count the tokens with an uppercase first character, with a numeric
character, and case-insensitively containing a keyword. -/
def specDensity (text : List Char) : ℚ :=
  let toks := splitWs text
  if toks = [] then 0
  else
    let n : ℚ := toks.length
    let a : ℚ := (toks.filter fun w => (w.head?.map Char.isUpper).getD false).length
    let b : ℚ := (toks.filter fun w => w.any fun c => c.isDigit).length
    let k : ℚ :=
      (toks.filter fun w => kwList.any fun kw => containsSub kw (w.map Char.toLower)).length
    min 1 ((1/2 * a + 3/10 * b + 7/10 * k) / n) + min (2/10) (n / 100)

theorem foldl_wordScore (l : List (List Char)) (q : ℚ) :
    l.foldl (fun acc w => acc + wordScore w) q = q + (l.map wordScore).sum := by
  induction l generalizing q with
  | nil => simp
  | cons w ws ih => simp [ih, add_assoc]

theorem sum_map_wordScore (l : List (List Char)) :
    (l.map wordScore).sum =
      1/2 * ((l.filter fun w => (w.head?.map Char.isUpper).getD false).length : ℚ) +
      3/10 * ((l.filter fun w => w.any fun c => c.isDigit).length : ℚ) +
      7/10 * ((l.filter fun w =>
        kwList.any fun kw => containsSub kw (w.map Char.toLower)).length : ℚ) := by
  induction l with
  | nil => simp
  | cons w ws ih =>
    simp only [List.map_cons, List.sum_cons, ih, wordScore, List.filter_cons]
    split_ifs <;> push_cast [List.length_cons] <;> ring

/-- C8: for every text, `calculate_semantic_density` tokenizes by
whitespace, returns `0` for zero tokens, and otherwise returns
`min(1, (0.5·a + 0.3·b + 0.7·k) / n) + min(0.2, n / 100)` where `a` counts
tokens with uppercase first character, `b` tokens containing a numeric
character, and `k` tokens whose lowercasing contains one of the ten fixed
keywords — the claimed accumulated-indicator formula. -/
theorem C8_density_formula (text : List Char) :
    calculate_semantic_density text = specDensity text := by
  unfold calculate_semantic_density specDensity
  rcases h : splitWs text with _ | ⟨w, ws⟩
  · simp
  · simp only [List.length_eq_zero, foldl_wordScore, sum_map_wordScore, zero_add,
      min_comm, reduceCtorEq, if_false]

/-! ### Shape of a successful split, shared by the pipeline invariants -/

theorem split_large_chunk_eq (st st' : StreamingChunker)
    (h : split_large_chunk st = some st') :
    ∃ sp first remaining overlap_text,
      find_optimal_split_point st.chunk_size st.chunk_overlap st.current_chunk
        = some sp ∧
      takeBytes? sp st.current_chunk = some first ∧
      dropBytes? sp st.current_chunk = some remaining ∧
      dropBytes?
        (if byteLen first > st.chunk_overlap then byteLen first - st.chunk_overlap
         else 0) first = some overlap_text ∧
      st' = { st with
              completed_chunks := st.completed_chunks ++
                [create_chunk_object first st.current_heading st.current_level
                  st.position]
              position := st.position + 1
              current_chunk := overlap_text ++ trimChars remaining } := by
  unfold split_large_chunk at h
  rcases hsp : find_optimal_split_point st.chunk_size st.chunk_overlap
      st.current_chunk with _ | sp
  · simp only [hsp] at h
    exact Option.noConfusion h
  · simp only [hsp] at h
    rcases hfirst : takeBytes? sp st.current_chunk with _ | first
    · simp only [hfirst] at h
      exact Option.noConfusion h
    · simp only [hfirst] at h
      rcases hrem : dropBytes? sp st.current_chunk with _ | remaining
      · simp only [hrem] at h
        exact Option.noConfusion h
      · simp only [hrem] at h
        rcases hov : dropBytes?
            (if byteLen first > st.chunk_overlap then
              byteLen first - st.chunk_overlap
             else 0) first with _ | overlap_text
        · simp only [hov] at h
          exact Option.noConfusion h
        · simp only [hov, Option.some.injEq] at h
          exact ⟨sp, first, remaining, overlap_text, rfl, hfirst, hrem, hov,
            h.symm⟩

/-! ### C9: position monotonicity -/

def posInv (st : StreamingChunker) : Prop :=
  st.position = st.completed_chunks.length ∧
  st.completed_chunks.map (fun c => c.metadata.position) =
    List.range st.completed_chunks.length

theorem posInv_new (cs co : Nat) : posInv (StreamingChunker.new cs co) := by
  constructor <;> rfl

theorem posInv_finalize (st : StreamingChunker) (h : posInv st) :
    posInv (finalize_current_chunk st) := by
  obtain ⟨h1, h2⟩ := h
  constructor
  · simp [finalize_current_chunk, h1]
  · simp [finalize_current_chunk, create_chunk_object, h1, h2, List.range_succ]

theorem posInv_split (st st' : StreamingChunker) (h : posInv st)
    (hs : split_large_chunk st = some st') : posInv st' := by
  obtain ⟨sp, first, remaining, overlap_text, _, _, _, _, rfl⟩ :=
    split_large_chunk_eq st st' hs
  obtain ⟨h1, h2⟩ := h
  constructor
  · simp [h1]
  · simp [create_chunk_object, h1, h2, List.range_succ]

theorem posInv_add_line (st st' : StreamingChunker) (line : List Char)
    (h : posInv st) (ha : add_line st line = some st') : posInv st' := by
  unfold add_line at ha
  rcases hc : headingCaptures line with _ | ⟨lvl, txt⟩
  · simp only [hc] at ha
    split at ha
    · exact posInv_split
        { st with current_chunk := appendLine st.current_chunk line } st'
        ⟨h.1, h.2⟩ ha
    · injection ha with ha'
      subst ha'
      exact ⟨h.1, h.2⟩
  · simp only [hc] at ha
    injection ha with ha'
    subst ha'
    by_cases he : st.current_chunk.isEmpty
    · simp only [he, if_true]
      exact ⟨h.1, h.2⟩
    · simp only [he, Bool.false_eq_true, if_false]
      exact ⟨(posInv_finalize st h).1, (posInv_finalize st h).2⟩

theorem posInv_processLines (ls : List (List Char)) (st st' : StreamingChunker)
    (h : posInv st) (hp : processLines st ls = some st') : posInv st' := by
  induction ls generalizing st with
  | nil => injection hp with hp'; subst hp'; exact h
  | cons l ls ih =>
    unfold processLines at hp
    split at hp
    · exact absurd hp (by simp)
    · rename_i st1 ha
      exact ih st1 (posInv_add_line st st1 l h ha) hp

/-- C9: for every document and configuration, when the pipeline completes,
the `metadata.position` values of the returned chunks, in output order, are
exactly `0, 1, 2, …` (i.e. `List.range` of the output length): strictly
increasing with no gaps or repeats; and a fresh accumulator starts the
counter at `0`. -/
theorem C9_position_monotonic (md : List Char) (cs co : Nat)
    (chunks : List Chunk)
    (h : semantic_chunking_optimized md cs co = some chunks) :
    chunks.map (fun c => c.metadata.position) = List.range chunks.length ∧
      (StreamingChunker.new cs co).position = 0 := by
  refine ⟨?_, rfl⟩
  unfold semantic_chunking_optimized at h
  rcases hp : processLines (StreamingChunker.new cs co) (rustLines md) with _ | st
  · rw [hp] at h; exact absurd h (by simp)
  · rw [hp] at h
    injection h with h'
    have hinv : posInv st := posInv_processLines _ _ _ (posInv_new cs co) hp
    subst h'
    unfold finalizeChunker
    by_cases he : st.current_chunk.isEmpty
    · simpa [he] using hinv.2
    · simpa [he] using (posInv_finalize st hinv).2

def chunkA : Chunk :=
  { content := 'a' :: []
    metadata :=
      { heading := none
        level := 0
        position := 0
        word_count := 1
        char_count := 1
        semantic_density := 1/100 } }

def exA : List Char := 'a' :: []

/-- C9 (witness): the position theorem applied to the one-chunk run of the
document `"a"` with `chunk_size = 5`, `chunk_overlap = 0`. -/
theorem C9_witness :
    List.map (fun c => c.metadata.position) [chunkA] = List.range 1 ∧
      (StreamingChunker.new 5 0).position = 0 :=
  C9_position_monotonic exA 5 0 [chunkA] (by with_unfolding_all rfl)

/-! ### C10: non-empty chunk contents; empty lines produce no chunks -/

theorem one_le_u8len (c : Char) : 1 ≤ u8len c := by
  unfold u8len
  split_ifs <;> decide

theorem byteLen_cons (c : Char) (s : List Char) :
    byteLen (c :: s) = u8len c + byteLen s := by
  simp [byteLen]

theorem takeBytes?_pos_ne_nil (n : Nat) (s t : List Char)
    (h : takeBytes? (n + 1) s = some t) : t ≠ [] := by
  cases s with
  | nil => exact Option.noConfusion h
  | cons c rest =>
    unfold takeBytes? at h
    split at h
    · exact Option.noConfusion h
    · rcases ht : takeBytes? (n + 1 - u8len c) rest with _ | t'
      · rw [ht] at h; exact Option.noConfusion h
      · rw [ht] at h
        injection h with h'
        subst h'
        exact List.cons_ne_nil c t'

theorem sentenceScanRev_ge2 (full : List Char) (l : List (Nat × Char)) (r : Nat)
    (h : sentenceScanRev full l = some r) : 2 ≤ r := by
  induction l with
  | nil => exact Option.noConfusion h
  | cons p rest ih =>
    obtain ⟨i, c⟩ := p
    unfold sentenceScanRev at h
    split at h
    · injection h with h'; omega
    · exact ih h

theorem find_optimal_pos (cs co : Nat) (text : List Char) (sp : Nat)
    (h : find_optimal_split_point cs co text = some sp)
    (hts : 1 ≤ cs - co) (hlen : cs < byteLen text) : 1 ≤ sp := by
  unfold find_optimal_split_point at h
  split at h
  · rename_i hge
    have : cs - co ≤ cs := Nat.sub_le cs co
    omega
  · split at h
    · exact Option.noConfusion h
    · split at h
      · injection h with h'; omega
      · split at h
        · injection h with h'; omega
        · split at h
          · rename_i r hr
            injection h with h'
            subst h'
            have := sentenceScanRev_ge2 _ _ _ hr
            omega
          · split at h
            · injection h with h'; omega
            · injection h with h'; omega

def neInv (st : StreamingChunker) : Prop :=
  st.chunk_overlap < st.chunk_size ∧
  ∀ c ∈ st.completed_chunks, c.content ≠ []

theorem neInv_finalize (st : StreamingChunker) (h : neInv st)
    (hne : st.current_chunk ≠ []) : neInv (finalize_current_chunk st) := by
  refine ⟨h.1, ?_⟩
  intro c hc
  simp only [finalize_current_chunk, List.mem_append, List.mem_singleton] at hc
  rcases hc with hc | hc
  · exact h.2 c hc
  · subst hc
    exact hne

theorem neInv_split (st st' : StreamingChunker) (h : neInv st)
    (hbig : st.chunk_size < byteLen st.current_chunk)
    (hs : split_large_chunk st = some st') : neInv st' := by
  obtain ⟨sp, first, remaining, overlap_text, hsp, hfirst, hrem, hov, rfl⟩ :=
    split_large_chunk_eq st st' hs
  refine ⟨h.1, ?_⟩
  intro c hc
  simp only [List.mem_append, List.mem_singleton] at hc
  rcases hc with hc | hc
  · exact h.2 c hc
  · subst hc
    have hpos : 1 ≤ sp :=
      find_optimal_pos st.chunk_size st.chunk_overlap st.current_chunk sp hsp
        (by have h1 := h.1; omega) hbig
    rcases sp with _ | n
    · omega
    · exact takeBytes?_pos_ne_nil n st.current_chunk first hfirst

theorem neInv_add_line (st st' : StreamingChunker) (line : List Char)
    (h : neInv st) (ha : add_line st line = some st') : neInv st' := by
  unfold add_line at ha
  rcases hc : headingCaptures line with _ | ⟨lvl, txt⟩
  · simp only [hc] at ha
    split at ha
    · rename_i hbig
      exact neInv_split
        { st with current_chunk := appendLine st.current_chunk line } st'
        ⟨h.1, h.2⟩ hbig ha
    · injection ha with ha'
      subst ha'
      exact ⟨h.1, h.2⟩
  · simp only [hc] at ha
    injection ha with ha'
    subst ha'
    by_cases he : st.current_chunk.isEmpty
    · simp only [he, if_true]
      exact ⟨h.1, h.2⟩
    · simp only [he, Bool.false_eq_true, if_false]
      have hne : st.current_chunk ≠ [] := by
        simpa [List.isEmpty_iff] using he
      exact ⟨(neInv_finalize st h hne).1, (neInv_finalize st h hne).2⟩

theorem neInv_processLines (ls : List (List Char)) (st st' : StreamingChunker)
    (h : neInv st) (hp : processLines st ls = some st') : neInv st' := by
  induction ls generalizing st with
  | nil => injection hp with hp'; subst hp'; exact h
  | cons l ls ih =>
    unfold processLines at hp
    split at hp
    · exact absurd hp (by simp)
    · rename_i st1 ha
      exact ih st1 (neInv_add_line st st1 l h ha) hp

theorem add_line_nil_line (st : StreamingChunker) (hcc : st.current_chunk = []) :
    add_line st [] = some st := by
  have h1 : headingCaptures [] = none := rfl
  have h2 : appendLine st.current_chunk [] = [] := by
    simp [appendLine, hcc]
  simp only [add_line, h1, h2]
  have h3 : ¬ byteLen [] > st.chunk_size := by
    simp [byteLen]
  simp only [h3, if_false]
  cases st
  simp_all

theorem processLines_all_nil (ls : List (List Char)) (st : StreamingChunker)
    (h : ∀ l ∈ ls, l = []) (hcc : st.current_chunk = []) :
    processLines st ls = some st := by
  induction ls with
  | nil => rfl
  | cons l ls ih =>
    have hl : l = [] := h l (List.mem_cons_self l ls)
    subst hl
    unfold processLines
    rw [add_line_nil_line st hcc]
    exact ih fun l hl => h l (List.mem_cons_of_mem _ hl)

/-- C10: whenever `chunk_overlap < chunk_size`, every chunk content emitted
by the pipeline (splits, heading transitions, or the final flush) is
non-empty; and any document all of whose lines are empty (in particular the
empty document) yields an empty chunk sequence. -/
theorem C10_nonempty_chunks :
    (∀ md cs co cts, co < cs → create_semantic_chunks md cs co = some cts →
      [] ∉ cts) ∧
    (∀ md cs co, co < cs → (∀ l ∈ rustLines md, l = []) →
      create_semantic_chunks md cs co = some []) := by
  constructor
  · intro md cs co cts hco h hmem
    unfold create_semantic_chunks semantic_chunking_optimized at h
    rcases hp : processLines (StreamingChunker.new cs co) (rustLines md)
      with _ | st
    · rw [hp] at h; exact absurd h (by simp)
    · rw [hp] at h
      simp only [Option.map_map, Option.map_some] at h
      injection h with h'
      subst h'
      have hinv : neInv st :=
        neInv_processLines _ _ _ ⟨hco, by simp [StreamingChunker.new]⟩ hp
      simp only [Function.comp, List.mem_map] at hmem
      obtain ⟨c, hc, hcnil⟩ := hmem
      unfold finalizeChunker at hc
      by_cases he : st.current_chunk.isEmpty
      · rw [if_pos he] at hc
        exact hinv.2 c hc hcnil
      · rw [if_neg he] at hc
        have hne : st.current_chunk ≠ [] := by
          simpa [List.isEmpty_iff] using he
        exact (neInv_finalize st hinv hne).2 c hc hcnil
  · intro md cs co _hco h
    unfold create_semantic_chunks semantic_chunking_optimized
    rw [processLines_all_nil (rustLines md) (StreamingChunker.new cs co) h rfl]
    rfl

def exAB : List Char := 'a' :: 'b' :: []

def exNl : List Char := '\n' :: []

/-- C10 (witness): the theorem applied to the documents `"ab"` (one
non-empty chunk) and `"\n"` (one empty line, no chunks) with
`chunk_size = 5`, `chunk_overlap = 0`. -/
theorem C10_witness :
    (0 < 5 ∧ [] ∉ [exAB]) ∧ create_semantic_chunks exNl 5 0 = some [] :=
  ⟨⟨by decide,
    C10_nonempty_chunks.1 exAB 5 0 [exAB] (by decide) (by decide)⟩,
   C10_nonempty_chunks.2 exNl 5 0 (by decide) (by decide)⟩

/-! ### C5 (amended): chunks emitted by the split path are bounded -/

theorem length_le_byteLen (s : List Char) : s.length ≤ byteLen s := by
  induction s with
  | nil => simp [byteLen]
  | cons c rest ih =>
    have := one_le_u8len c
    simp only [List.length_cons, byteLen_cons]
    omega

theorem byteLen_append (a b : List Char) :
    byteLen (a ++ b) = byteLen a + byteLen b := by
  simp [byteLen]

theorem takeBytes?_byteLen (n : Nat) (s t : List Char)
    (h : takeBytes? n s = some t) : byteLen t = n := by
  induction s generalizing n t with
  | nil =>
    cases n with
    | zero => injection h with h'; subst h'; rfl
    | succ m => exact Option.noConfusion h
  | cons c rest ih =>
    cases n with
    | zero => injection h with h'; subst h'; rfl
    | succ m =>
      unfold takeBytes? at h
      split at h
      · exact Option.noConfusion h
      · rename_i hge
        rcases ht : takeBytes? (m + 1 - u8len c) rest with _ | t'
        · rw [ht] at h; exact Option.noConfusion h
        · rw [ht] at h
          injection h with h'
          subst h'
          have := ih _ _ ht
          simp only [byteLen_cons]
          omega

theorem dropBytes?_byteLen (n : Nat) (s t : List Char)
    (h : dropBytes? n s = some t) : n + byteLen t = byteLen s := by
  induction s generalizing n t with
  | nil =>
    cases n with
    | zero => injection h with h'; subst h'; rfl
    | succ m => exact Option.noConfusion h
  | cons c rest ih =>
    cases n with
    | zero => injection h with h'; subst h'; omega
    | succ m =>
      unfold dropBytes? at h
      split at h
      · exact Option.noConfusion h
      · rename_i hge
        have := ih _ _ h
        simp only [byteLen_cons]
        omega

theorem dropBytes?_shift (c : Char) (m : Nat) (rest : List Char) :
    dropBytes? (u8len c + m) (c :: rest) = dropBytes? m rest := by
  have h1 := one_le_u8len c
  rcases hk : u8len c + m with _ | k
  · omega
  · have hc : ¬ k + 1 < u8len c := by omega
    have hm : k + 1 - u8len c = m := by omega
    have hstep : dropBytes? (k + 1) (c :: rest) =
        if k + 1 < u8len c then none
        else dropBytes? (k + 1 - u8len c) rest := rfl
    rw [hstep, if_neg hc, hm]

theorem isPrefixOf_byteLen_le (pat t : List Char) (h : pat.isPrefixOf t) :
    byteLen pat ≤ byteLen t := by
  rw [List.isPrefixOf_iff_prefix] at h
  obtain ⟨u, rfl⟩ := h
  rw [byteLen_append]
  omega

theorem rfindSub_occurs (pat s : List Char) (o : Nat)
    (h : rfindSub pat s = some o) :
    ∃ t, dropBytes? o s = some t ∧ pat.isPrefixOf t := by
  induction s generalizing o with
  | nil => exact Option.noConfusion h
  | cons c rest ih =>
    unfold rfindSub at h
    rcases hr : rfindSub pat rest with _ | o'
    · simp only [hr] at h
      split at h
      · injection h with h'
        subst h'
        exact ⟨c :: rest, rfl, by assumption⟩
      · exact Option.noConfusion h
    · simp only [hr] at h
      injection h with h'
      subst h'
      obtain ⟨t, ht, hp⟩ := ih o' hr
      exact ⟨t, by rw [dropBytes?_shift]; exact ht, hp⟩

theorem rfindCharP_occurs (p : Char → Bool) (s : List Char) (o : Nat)
    (h : rfindCharP p s = some o) :
    ∃ c rest2, dropBytes? o s = some (c :: rest2) ∧ p c := by
  induction s generalizing o with
  | nil => exact Option.noConfusion h
  | cons c rest ih =>
    unfold rfindCharP at h
    rcases hr : rfindCharP p rest with _ | o'
    · simp only [hr] at h
      split at h
      · injection h with h'
        subst h'
        exact ⟨c, rest, rfl, by assumption⟩
      · exact Option.noConfusion h
    · simp only [hr] at h
      injection h with h'
      subst h'
      obtain ⟨d, rest2, ht, hp⟩ := ih o' hr
      exact ⟨d, rest2, by rw [dropBytes?_shift]; exact ht, hp⟩

theorem sentenceScanRev_hit (full : List Char) (l : List (Nat × Char)) (r : Nat)
    (h : sentenceScanRev full l = some r) :
    ∃ i c, (i, c) ∈ l ∧ r = i + 2 ∧
      (c == '.' || c == '!' || c == '?') = true := by
  induction l with
  | nil => exact Option.noConfusion h
  | cons p rest ih =>
    obtain ⟨i, c⟩ := p
    unfold sentenceScanRev at h
    split at h
    · rename_i hcond
      injection h with h'
      subst h'
      exact ⟨i, c, List.mem_cons_self _ _, rfl,
        (Bool.and_eq_true _ _ ▸ hcond).1⟩
    · obtain ⟨i', c', hm, hr, hp⟩ := ih h
      exact ⟨i', c', List.mem_cons_of_mem _ hm, hr, hp⟩

theorem charIdxFrom_mem (s : List Char) (off i : Nat) (c : Char)
    (h : (i, c) ∈ charIdxFrom off s) : i + u8len c ≤ off + byteLen s := by
  induction s generalizing off with
  | nil => exact absurd h (by simp [charIdxFrom])
  | cons d rest ih =>
    unfold charIdxFrom at h
    rcases List.mem_cons.mp h with h1 | h1
    · injection h1 with h2 h3
      subst h2
      subst h3
      have := one_le_u8len c
      simp only [byteLen_cons]
      omega
    · have := ih (off + u8len d) h1
      simp only [byteLen_cons]
      omega

theorem punct_u8len (c : Char)
    (h : (c == '.' || c == '!' || c == '?') = true) : u8len c = 1 := by
  simp only [Bool.or_eq_true, beq_iff_eq] at h
  rcases h with (h | h) | h <;> subst h <;> decide

theorem find_optimal_le (cs co : Nat) (text : List Char) (sp : Nat)
    (h : find_optimal_split_point cs co text = some sp)
    (hlt : cs - co < byteLen text) : sp ≤ cs - co + 1 := by
  unfold find_optimal_split_point at h
  split at h
  · rename_i hge
    injection h with h'
    omega
  · rcases hpre : takeBytes? (cs - co) text with _ | pre
    · simp only [hpre] at h
      exact Option.noConfusion h
    · simp only [hpre] at h
      have hlenpre : byteLen pre = cs - co := takeBytes?_byteLen _ _ _ hpre
      rcases hsub : rfindSub ('\n' :: '\n' :: []) pre with _ | pos
      · simp only [hsub] at h
        rcases hnl : rfindCharP (fun c => c == '\n') pre with _ | pos
        · simp only [hnl] at h
          rcases hsent : sentenceScanRev text (charIdx pre).reverse with _ | r
          · simp only [hsent] at h
            rcases hws : rfindCharP isWs pre with _ | pos
            · simp only [hws] at h
              injection h with h'
              omega
            · simp only [hws] at h
              injection h with h'
              obtain ⟨d, rest2, ht, _⟩ := rfindCharP_occurs _ _ _ hws
              have h1 := dropBytes?_byteLen _ _ _ ht
              have h2 := one_le_u8len d
              have h3 := byteLen_cons d rest2
              omega
          · simp only [hsent] at h
            injection h with h'
            obtain ⟨i, c, hm, hreq, hp⟩ := sentenceScanRev_hit _ _ _ hsent
            rw [List.mem_reverse] at hm
            have h1 := charIdxFrom_mem pre 0 i c hm
            have h2 := punct_u8len c hp
            omega
        · simp only [hnl] at h
          injection h with h'
          obtain ⟨d, rest2, ht, _⟩ := rfindCharP_occurs _ _ _ hnl
          have h1 := dropBytes?_byteLen _ _ _ ht
          have h2 := one_le_u8len d
          have h3 := byteLen_cons d rest2
          omega
      · simp only [hsub] at h
        injection h with h'
        obtain ⟨t, ht, hp⟩ := rfindSub_occurs _ _ _ hsub
        have h1 := dropBytes?_byteLen _ _ _ ht
        have h2 := isPrefixOf_byteLen_le _ _ hp
        have h3 : byteLen ('\n' :: '\n' :: []) = 2 := rfl
        omega

def dummyChunk : Chunk :=
  { content := []
    metadata :=
      { heading := none
        level := 0
        position := 0
        word_count := 0
        char_count := 0
        semantic_density := 0 } }

/-- C5 (amended): every chunk emitted by the size-overflow split path has
character length (indeed byte length) at most
`chunk_size - chunk_overlap + 1`; chunks finalized by heading transitions
or by `finalize` are unbounded (the counterexample exhibits a 20-character
heading-finalized chunk under `chunk_size = 10`), since `split_large_chunk`
splits only once per added line. -/
theorem C5_split_chunk_bound (st st' : StreamingChunker)
    (hbig : byteLen st.current_chunk > st.chunk_size)
    (hs : split_large_chunk st = some st') :
    st'.completed_chunks.length = st.completed_chunks.length + 1 ∧
      (st'.completed_chunks.getLastD dummyChunk).content.length ≤
        st.chunk_size - st.chunk_overlap + 1 := by
  obtain ⟨sp, first, remaining, overlap_text, hsp, hfirst, hrem, hov, rfl⟩ :=
    split_large_chunk_eq st st' hs
  constructor
  · simp
  · have hlt : st.chunk_size - st.chunk_overlap < byteLen st.current_chunk := by
      have := Nat.sub_le st.chunk_size st.chunk_overlap
      omega
    have hle := find_optimal_le _ _ _ _ hsp hlt
    have hfb := takeBytes?_byteLen _ _ _ hfirst
    have hfl := length_le_byteLen first
    simp only [List.getLastD_concat]
    show first.length ≤ st.chunk_size - st.chunk_overlap + 1
    omega

def stC5 : StreamingChunker :=
  { StreamingChunker.new 5 0 with current_chunk := "aaaaaaa".toList }

def stC5r : StreamingChunker :=
  { chunk_size := 5
    chunk_overlap := 0
    current_chunk := 'a' :: 'a' :: []
    current_heading := none
    current_level := 0
    position := 1
    completed_chunks :=
      [ { content := "aaaaa".toList
          metadata :=
            { heading := none
              level := 0
              position := 0
              word_count := 1
              char_count := 5
              semantic_density := 1/100 } } ] }

/-- C5 (witness): the amended bound applied to a concrete split of the
buffer `"aaaaaaa"` under `chunk_size = 5`, `chunk_overlap = 0`. -/
theorem C5_witness :
    byteLen stC5.current_chunk > stC5.chunk_size ∧
      (stC5r.completed_chunks.length = stC5.completed_chunks.length + 1 ∧
        (stC5r.completed_chunks.getLastD dummyChunk).content.length ≤
          stC5.chunk_size - stC5.chunk_overlap + 1) :=
  ⟨by decide, C5_split_chunk_bound stC5 stC5r (by decide)
    (by with_unfolding_all rfl)⟩

/-! ### C1 (amended): characterization of the backward split-point search

Spec-side formulation: each tier picks the GREATEST byte offset in the
prefix satisfying the tier's condition, expressed by a downward search
`greatestBelow`, with the conditions phrased through byte-offset predicates
(`occursSubAt`, `charHit`, `sentHit`) rather than through the structural
recursions of the embedding. -/

/-- The character starting at byte offset `o` of `s`, if `o` is a character
boundary inside `s`. -/
def charAtB (s : List Char) (o : Nat) : Option Char :=
  match dropBytes? o s with
  | some (c :: _) => some c
  | _ => none

/-- `pat` occurs as a substring starting at byte offset `o`. -/
def occursSubAt (pat s : List Char) (o : Nat) : Bool :=
  match dropBytes? o s with
  | some t => pat.isPrefixOf t
  | none => false

/-- The character at byte offset `o` satisfies `p`. -/
def charHit (p : Char → Bool) (s : List Char) (o : Nat) : Bool :=
  match charAtB s o with
  | some c => p c
  | none => false

/-- The sentence-tier condition at byte offset `o` of the prefix: a `.`,
`!` or `?` there, and the character of the FULL text at list index
`off + o + 1` (the byte-offset/char-index confusion of the source) is
whitespace. -/
def sentHit (full s : List Char) (off o : Nat) : Bool :=
  (match charAtB s o with
   | some c => c == '.' || c == '!' || c == '?'
   | none => false) &&
  (match full.get? (off + o + 1) with
   | some d => isWs d
   | none => false)

/-- Greatest `o < n` with `p o = true`, by explicit downward search. -/
def greatestBelow (p : Nat → Bool) : Nat → Option Nat
  | 0 => none
  | n + 1 => if p n then some n else greatestBelow p n

/-- The Boundary Detector as described by the amended claim: backward
search, trying in order paragraph break, single line break, sentence
punctuation followed by (full-text, char-indexed) whitespace, word
boundary, hard cut at the target. -/
def specSplitPoint (cs co : Nat) (text : List Char) : Option Nat :=
  if cs - co ≥ byteLen text then some (byteLen text)
  else
    match takeBytes? (cs - co) text with
    | none => none
    | some pre =>
      match greatestBelow (occursSubAt ('\n' :: '\n' :: []) pre) (byteLen pre) with
      | some o => some (o + 2)
      | none =>
        match greatestBelow (charHit (fun c => c == '\n') pre) (byteLen pre) with
        | some o => some (o + 1)
        | none =>
          match greatestBelow (sentHit text pre 0) (byteLen pre) with
          | some o => some (o + 2)
          | none =>
            match greatestBelow (charHit isWs pre) (byteLen pre) with
            | some o => some (o + 1)
            | none => some (cs - co)

theorem byteLen_pos_of_ne_nil (s : List Char) (h : s ≠ []) : 1 ≤ byteLen s := by
  cases s with
  | nil => exact absurd rfl h
  | cons c rest =>
    have := one_le_u8len c
    rw [byteLen_cons]
    omega

theorem greatestBelow_some_spec (p : Nat → Bool) (n o : Nat)
    (h : greatestBelow p n = some o) :
    p o = true ∧ o < n ∧ ∀ j, o < j → j < n → p j = false := by
  induction n with
  | zero => exact Option.noConfusion h
  | succ m ih =>
    unfold greatestBelow at h
    split at h
    · rename_i hp
      injection h with h'
      subst h'
      exact ⟨hp, Nat.lt_succ_self _, fun j h1 h2 => by omega⟩
    · rename_i hp
      obtain ⟨h1, h2, h3⟩ := ih h
      refine ⟨h1, by omega, fun j hj1 hj2 => ?_⟩
      rcases Nat.lt_or_ge j m with hj | hj
      · exact h3 j hj1 hj
      · have : j = m := by omega
        subst this
        exact Bool.eq_false_iff.mpr (by simpa using hp)

theorem greatestBelow_eq_some (p : Nat → Bool) (n o : Nat)
    (hp : p o = true) (ho : o < n)
    (hmax : ∀ j, o < j → j < n → p j = false) :
    greatestBelow p n = some o := by
  induction n with
  | zero => omega
  | succ m ih =>
    unfold greatestBelow
    by_cases hm : p m = true
    · have : o = m := by
        by_contra hne
        have h1 : o < m := by omega
        have := hmax m h1 (Nat.lt_succ_self m)
        rw [this] at hm
        exact Bool.noConfusion hm
      subst this
      rw [if_pos hm]
    · rw [if_neg hm]
      have ho' : o < m := by
        rcases Nat.lt_or_ge o m with h1 | h1
        · exact h1
        · have : o = m := by omega
          subst this
          exact absurd hp hm
      exact ih ho' fun j h1 h2 => hmax j h1 (by omega)

theorem greatestBelow_eq_none (p : Nat → Bool) (n : Nat)
    (h : ∀ j, j < n → p j = false) : greatestBelow p n = none := by
  induction n with
  | zero => rfl
  | succ m ih =>
    unfold greatestBelow
    rw [if_neg (by simp [h m (Nat.lt_succ_self m)])]
    exact ih fun j hj => h j (by omega)

theorem occursSubAt_zero (pat s : List Char) :
    occursSubAt pat s 0 = pat.isPrefixOf s := by
  cases s <;> rfl

theorem occursSubAt_shift (pat : List Char) (c : Char) (rest : List Char)
    (m : Nat) :
    occursSubAt pat (c :: rest) (u8len c + m) = occursSubAt pat rest m := by
  unfold occursSubAt
  rw [dropBytes?_shift]

theorem occursSubAt_mid (pat : List Char) (c : Char) (rest : List Char)
    (k : Nat) (h : k + 1 < u8len c) :
    occursSubAt pat (c :: rest) (k + 1) = false := by
  unfold occursSubAt
  have hd : dropBytes? (k + 1) (c :: rest) = none := by
    unfold dropBytes?
    rw [if_pos h]
  rw [hd]

theorem occursSubAt_nil (pat : List Char) (hpat : pat ≠ []) (j : Nat) :
    occursSubAt pat [] j = false := by
  cases j with
  | zero =>
    rw [occursSubAt_zero]
    cases pat with
    | nil => exact absurd rfl hpat
    | cons p ps => rfl
  | succ k => rfl

theorem rfindSub_none_all (pat s : List Char) (hpat : pat ≠ [])
    (h : rfindSub pat s = none) : ∀ j, occursSubAt pat s j = false := by
  induction s with
  | nil => exact occursSubAt_nil pat hpat
  | cons c rest ih =>
    unfold rfindSub at h
    rcases hr : rfindSub pat rest with _ | o'
    · simp only [hr] at h
      intro j
      rcases j with _ | k
      · rw [occursSubAt_zero]
        split at h
        · exact Option.noConfusion h
        · rename_i hnp
          exact Bool.eq_false_iff.mpr hnp
      · rcases Nat.lt_or_ge (k + 1) (u8len c) with hk | hk
        · exact occursSubAt_mid pat c rest k hk
        · have hm : k + 1 = u8len c + (k + 1 - u8len c) := by omega
          rw [hm, occursSubAt_shift]
          exact ih hr _
    · simp only [hr] at h
      exact Option.noConfusion h

theorem rfindSub_max (pat s : List Char) (o : Nat) (hpat : pat ≠ [])
    (h : rfindSub pat s = some o) :
    ∀ j, o < j → occursSubAt pat s j = false := by
  induction s generalizing o with
  | nil => exact Option.noConfusion h
  | cons c rest ih =>
    unfold rfindSub at h
    rcases hr : rfindSub pat rest with _ | o'
    · simp only [hr] at h
      split at h
      · injection h with h'
        subst h'
        intro j hj
        rcases j with _ | k
        · omega
        · rcases Nat.lt_or_ge (k + 1) (u8len c) with hk | hk
          · exact occursSubAt_mid pat c rest k hk
          · have hm : k + 1 = u8len c + (k + 1 - u8len c) := by omega
            rw [hm, occursSubAt_shift]
            exact rfindSub_none_all pat rest hpat hr _
      · exact Option.noConfusion h
    · simp only [hr] at h
      injection h with h'
      subst h'
      intro j hj
      have h1 := one_le_u8len c
      rcases j with _ | k
      · omega
      · rcases Nat.lt_or_ge (k + 1) (u8len c) with hk | hk
        · exact occursSubAt_mid pat c rest k hk
        · have hm : k + 1 = u8len c + (k + 1 - u8len c) := by omega
          rw [hm, occursSubAt_shift]
          exact ih o' hr _ (by omega)

theorem eq_greatestBelow_sub (pat pre : List Char) (hpat : pat ≠ []) :
    rfindSub pat pre = greatestBelow (occursSubAt pat pre) (byteLen pre) := by
  rcases h : rfindSub pat pre with _ | o
  · exact (greatestBelow_eq_none _ _
      fun j _ => rfindSub_none_all pat pre hpat h j).symm
  · obtain ⟨t, ht, hp⟩ := rfindSub_occurs pat pre o h
    have hocc : occursSubAt pat pre o = true := by
      unfold occursSubAt
      rw [ht]
      exact hp
    have hbound : o < byteLen pre := by
      have h1 := dropBytes?_byteLen _ _ _ ht
      have h2 := isPrefixOf_byteLen_le _ _ hp
      have h3 := byteLen_pos_of_ne_nil pat hpat
      omega
    exact (greatestBelow_eq_some _ _ _ hocc hbound
      fun j hj _ => rfindSub_max pat pre o hpat h j hj).symm

theorem charHit_zero (p : Char → Bool) (c : Char) (rest : List Char) :
    charHit p (c :: rest) 0 = p c := rfl

theorem charHit_shift (p : Char → Bool) (c : Char) (rest : List Char)
    (m : Nat) : charHit p (c :: rest) (u8len c + m) = charHit p rest m := by
  unfold charHit charAtB
  rw [dropBytes?_shift]

theorem charHit_mid (p : Char → Bool) (c : Char) (rest : List Char)
    (k : Nat) (h : k + 1 < u8len c) :
    charHit p (c :: rest) (k + 1) = false := by
  unfold charHit charAtB
  have hd : dropBytes? (k + 1) (c :: rest) = none := by
    unfold dropBytes?
    rw [if_pos h]
  rw [hd]

theorem charHit_nil (p : Char → Bool) (j : Nat) : charHit p [] j = false := by
  cases j <;> rfl

theorem rfindCharP_none_all (p : Char → Bool) (s : List Char)
    (h : rfindCharP p s = none) : ∀ j, charHit p s j = false := by
  induction s with
  | nil => exact charHit_nil p
  | cons c rest ih =>
    unfold rfindCharP at h
    rcases hr : rfindCharP p rest with _ | o'
    · simp only [hr] at h
      intro j
      rcases j with _ | k
      · rw [charHit_zero]
        split at h
        · exact Option.noConfusion h
        · rename_i hnp
          exact Bool.eq_false_iff.mpr hnp
      · rcases Nat.lt_or_ge (k + 1) (u8len c) with hk | hk
        · exact charHit_mid p c rest k hk
        · have hm : k + 1 = u8len c + (k + 1 - u8len c) := by omega
          rw [hm, charHit_shift]
          exact ih hr _
    · simp only [hr] at h
      exact Option.noConfusion h

theorem rfindCharP_max (p : Char → Bool) (s : List Char) (o : Nat)
    (h : rfindCharP p s = some o) : ∀ j, o < j → charHit p s j = false := by
  induction s generalizing o with
  | nil => exact Option.noConfusion h
  | cons c rest ih =>
    unfold rfindCharP at h
    rcases hr : rfindCharP p rest with _ | o'
    · simp only [hr] at h
      split at h
      · injection h with h'
        subst h'
        intro j hj
        rcases j with _ | k
        · omega
        · rcases Nat.lt_or_ge (k + 1) (u8len c) with hk | hk
          · exact charHit_mid p c rest k hk
          · have hm : k + 1 = u8len c + (k + 1 - u8len c) := by omega
            rw [hm, charHit_shift]
            exact rfindCharP_none_all p rest hr _
      · exact Option.noConfusion h
    · simp only [hr] at h
      injection h with h'
      subst h'
      intro j hj
      have h1 := one_le_u8len c
      rcases j with _ | k
      · omega
      · rcases Nat.lt_or_ge (k + 1) (u8len c) with hk | hk
        · exact charHit_mid p c rest k hk
        · have hm : k + 1 = u8len c + (k + 1 - u8len c) := by omega
          rw [hm, charHit_shift]
          exact ih o' hr _ (by omega)

theorem eq_greatestBelow_char (p : Char → Bool) (pre : List Char) :
    rfindCharP p pre = greatestBelow (charHit p pre) (byteLen pre) := by
  rcases h : rfindCharP p pre with _ | o
  · exact (greatestBelow_eq_none _ _
      fun j _ => rfindCharP_none_all p pre h j).symm
  · obtain ⟨c, rest2, ht, hp⟩ := rfindCharP_occurs p pre o h
    have hocc : charHit p pre o = true := by
      unfold charHit charAtB
      rw [ht]
      exact hp
    have hbound : o < byteLen pre := by
      have h1 := dropBytes?_byteLen _ _ _ ht
      have h2 := one_le_u8len c
      have h3 := byteLen_cons c rest2
      omega
    exact (greatestBelow_eq_some _ _ _ hocc hbound
      fun j hj _ => rfindCharP_max p pre o h j hj).symm

theorem sentHit_nil (full : List Char) (off j : Nat) :
    sentHit full [] off j = false := by
  cases j <;> rfl

theorem charAtB_none_mid (c : Char) (rest : List Char) (k : Nat)
    (h : k + 1 < u8len c) : charAtB (c :: rest) (k + 1) = none := by
  unfold charAtB
  have hd : dropBytes? (k + 1) (c :: rest) = none := by
    unfold dropBytes?
    rw [if_pos h]
  rw [hd]

theorem sentHit_mid (full : List Char) (c : Char) (rest : List Char)
    (off k : Nat) (h : k + 1 < u8len c) :
    sentHit full (c :: rest) off (k + 1) = false := by
  unfold sentHit
  rw [charAtB_none_mid c rest k h]
  rfl

theorem sentHit_shift (full : List Char) (c : Char) (rest : List Char)
    (off m : Nat) :
    sentHit full (c :: rest) off (u8len c + m) =
      sentHit full rest (off + u8len c) m := by
  unfold sentHit charAtB
  rw [dropBytes?_shift]
  have harg : off + (u8len c + m) + 1 = off + u8len c + m + 1 := by omega
  rw [harg]

theorem charAtB_some_lt (s : List Char) (m : Nat) (c : Char)
    (h : charAtB s m = some c) : m < byteLen s := by
  unfold charAtB at h
  rcases hd : dropBytes? m s with _ | t
  · rw [hd] at h
    exact Option.noConfusion h
  · rw [hd] at h
    cases t with
    | nil => exact Option.noConfusion h
    | cons c' r2 =>
      have h1 := dropBytes?_byteLen _ _ _ hd
      have h2 := one_le_u8len c'
      have h3 := byteLen_cons c' r2
      omega

theorem sentHit_lt (full s : List Char) (off m : Nat)
    (h : sentHit full s off m = true) : m < byteLen s := by
  rcases hca : charAtB s m with _ | c
  · unfold sentHit at h
    rw [hca] at h
    exact Bool.noConfusion h
  · exact charAtB_some_lt s m c hca

theorem sentenceScanRev_append (full : List Char)
    (l₁ l₂ : List (Nat × Char)) :
    sentenceScanRev full (l₁ ++ l₂) =
      match sentenceScanRev full l₁ with
      | some r => some r
      | none => sentenceScanRev full l₂ := by
  induction l₁ with
  | nil => rfl
  | cons p rest ih =>
    obtain ⟨i, c⟩ := p
    simp only [List.cons_append, sentenceScanRev]
    split
    · rfl
    · exact ih

theorem scanRev_none (full : List Char) (s : List Char) (off : Nat)
    (h : sentenceScanRev full (charIdxFrom off s).reverse = none) :
    ∀ j, sentHit full s off j = false := by
  induction s generalizing off with
  | nil => exact sentHit_nil full off
  | cons c rest ih =>
    rw [show charIdxFrom off (c :: rest) =
        (off, c) :: charIdxFrom (off + u8len c) rest from rfl,
      List.reverse_cons, sentenceScanRev_append] at h
    rcases hA : sentenceScanRev full (charIdxFrom (off + u8len c) rest).reverse
      with _ | r
    · simp only [hA] at h
      unfold sentenceScanRev at h
      split at h
      · exact Option.noConfusion h
      · rename_i hcond
        intro j
        rcases j with _ | k
        · exact Bool.eq_false_iff.mpr hcond
        · rcases Nat.lt_or_ge (k + 1) (u8len c) with hk | hk
          · exact sentHit_mid full c rest off k hk
          · have hm : k + 1 = u8len c + (k + 1 - u8len c) := by omega
            rw [hm, sentHit_shift]
            exact ih (off + u8len c) hA _
    · simp only [hA] at h
      exact Option.noConfusion h

theorem scanRev_some (full : List Char) (s : List Char) (off r : Nat)
    (h : sentenceScanRev full (charIdxFrom off s).reverse = some r) :
    ∃ m, sentHit full s off m = true ∧ r = off + m + 2 ∧
      ∀ j, m < j → sentHit full s off j = false := by
  induction s generalizing off r with
  | nil => exact Option.noConfusion h
  | cons c rest ih =>
    rw [show charIdxFrom off (c :: rest) =
        (off, c) :: charIdxFrom (off + u8len c) rest from rfl,
      List.reverse_cons, sentenceScanRev_append] at h
    rcases hA : sentenceScanRev full (charIdxFrom (off + u8len c) rest).reverse
      with _ | r'
    · simp only [hA] at h
      unfold sentenceScanRev at h
      split at h
      · rename_i hcond
        injection h with h'
        refine ⟨0, hcond, by omega, fun j hj => ?_⟩
        rcases j with _ | k
        · omega
        · rcases Nat.lt_or_ge (k + 1) (u8len c) with hk | hk
          · exact sentHit_mid full c rest off k hk
          · have hm : k + 1 = u8len c + (k + 1 - u8len c) := by omega
            rw [hm, sentHit_shift]
            exact scanRev_none full rest (off + u8len c) hA _
      · exact Option.noConfusion h
    · simp only [hA] at h
      injection h with h'
      obtain ⟨m, hit, heq, hmax⟩ := ih (off + u8len c) r' hA
      have h1 := one_le_u8len c
      refine ⟨u8len c + m, by rw [sentHit_shift]; exact hit, by omega,
        fun j hj => ?_⟩
      rcases j with _ | k
      · omega
      · rcases Nat.lt_or_ge (k + 1) (u8len c) with hk | hk
        · exact absurd hk (by omega)
        · have hm2 : k + 1 = u8len c + (k + 1 - u8len c) := by omega
          rw [hm2, sentHit_shift]
          exact hmax _ (by omega)

theorem scan_eq_greatest_sent (full pre : List Char) :
    sentenceScanRev full (charIdx pre).reverse =
      Option.map (fun o => o + 2)
        (greatestBelow (sentHit full pre 0) (byteLen pre)) := by
  rcases hs : sentenceScanRev full (charIdx pre).reverse with _ | r
  · rw [greatestBelow_eq_none _ _
      (fun j _ => scanRev_none full pre 0 hs j)]
    rfl
  · obtain ⟨m, hit, heq, hmax⟩ := scanRev_some full pre 0 r hs
    rw [greatestBelow_eq_some _ _ m hit (sentHit_lt full pre 0 m hit)
      (fun j h1 _ => hmax j h1)]
    exact congrArg some (show r = m + 2 by omega)

/-- C1 (amended): `find_optimal_split_point` equals the backward,
last-occurrence specification: target at-or-past the end returns the byte
length; otherwise, over the prefix ending at the target, the tiers are, in
order: cut two bytes after the LAST `"\n\n"`, one byte after the LAST
`'\n'`, two bytes after the LAST sentence punctuation whose following
full-text character (indexed by the byte offset) is whitespace, one byte
after the LAST whitespace, else the hard cut at the target.  (The original
claim's forward search and its sentence-before-line-break order are refuted
by the counterexample.) -/
theorem C1_amended (cs co : Nat) (text : List Char) :
    find_optimal_split_point cs co text = specSplitPoint cs co text := by
  unfold find_optimal_split_point specSplitPoint
  split
  · rfl
  · split
    · rfl
    · rename_i pre hpre
      rw [eq_greatestBelow_sub ('\n' :: '\n' :: []) pre (by simp),
        eq_greatestBelow_char (fun c => c == '\n') pre,
        eq_greatestBelow_char isWs pre,
        scan_eq_greatest_sent text pre]
      split
      · rfl
      · split
        · rfl
        · rcases greatestBelow (sentHit text pre 0) (byteLen pre) with _ | o
          · rw [show Option.map (fun o => o + 2) (none : Option Nat) = none
              from rfl]
          · rfl

end MarkdownLab
